import Mathlib

/-!
Verification of the locality analysis pipeline (camoco/cli/commands/locality.py).

The development shallowly embeds the statistical core of `generate_data` and the
output guard of `locality`:

* the windowing of the bootstrap population (lines 128-136),
* the merge of an under-populated final window (lines 134-136),
* the through-origin ordinary-least-squares trend (lines 123-125, 192-194),
* the gene-specific FDR threshold loop (lines 196-216),
* the aggregate-mode p-value (lines 217-224),
* the z-score division with IEEE-style non-finite results (lines 168-174, 201-202),
* the output-file existence guard (lines 24-34, 74).

Numeric columns are modelled as rationals, record tables as lists of records,
and the Python `ZeroDivisionError` as an `Option` result.
-/

namespace Locality

/-! ## Windowing of the bootstrap population (locality.py lines 128-136) -/

/-- Line 130: `num_windows = len(bsloc) // args.regression_window_size`. -/
def num_windows (N w : ℕ) : ℕ := N / w

/-- Line 131: `window_ticks = len(bsloc) // num_windows`.  In Python this raises
`ZeroDivisionError` when `num_windows = 0`; the total function here is only
meaningful when `num_windows N w ≠ 0` (see `windowAssign`). -/
def window_ticks (N w : ℕ) : ℕ := N / num_windows N w

/-- Line 132: the window index `int(i/window_ticks)` of the record at 0-based
sorted rank `i`. -/
def windowOf (N w i : ℕ) : ℕ := i / window_ticks N w

/-- Line 132: the window column, one index per record in sorted order. -/
def windowIndices (N w : ℕ) : List ℕ := (List.range N).map (windowOf N w)

/-- Lines 130-132 as run by Python: `none` models the `ZeroDivisionError`
raised at line 131 when `num_windows = 0`. -/
def windowAssign (N w : ℕ) : Option (List ℕ) :=
  if num_windows N w = 0 then none else some (windowIndices N w)

/-- The number of distinct window indices produced before merging. -/
def numDistinctWindows (N w : ℕ) : ℕ := (windowIndices N w).dedup.length

/-! ## C1: populations smaller than one window -/

/-- **C1.** For every bootstrap population with `N < w` records (including the
empty one), the windowing step raises `ZeroDivisionError` (modelled as `none`):
`num_windows = N // w = 0` and line 131 divides by it.  The code crashes
instead of collapsing to a single window as the specification requires. -/
theorem windowAssign_crashes_of_small (N w : ℕ) (h : N < w) :
    windowAssign N w = none := by
  unfold windowAssign num_windows
  simp [Nat.div_eq_of_lt h]

/-- Witness: at the failing input `N = 1`, `w = 2` the windowing step crashes. -/
theorem windowAssign_crashes_of_small_witness :
    (1 : ℕ) < 2 ∧ windowAssign 1 2 = none :=
  ⟨by decide, windowAssign_crashes_of_small 1 2 (by decide)⟩

/-! ## C2: window indices for populations with `N ≥ w` -/

theorem num_windows_pos (N w : ℕ) (hw : 1 ≤ w) (hN : w ≤ N) :
    0 < num_windows N w := by
  have := (Nat.one_le_div_iff (Nat.lt_of_lt_of_le Nat.zero_lt_one hw)).mpr hN
  simpa [num_windows] using this

theorem window_ticks_pos (N w : ℕ) (hw : 1 ≤ w) (hN : w ≤ N) :
    0 < window_ticks N w := by
  have hnw := num_windows_pos N w hw hN
  have hle : num_windows N w ≤ N := Nat.div_le_self N w
  have := (Nat.one_le_div_iff hnw).mpr hle
  simpa [window_ticks] using this

theorem le_window_ticks (N w : ℕ) (hw : 1 ≤ w) (hN : w ≤ N) :
    w ≤ window_ticks N w := by
  have hnw := num_windows_pos N w hw hN
  have hmul : w * num_windows N w ≤ N := by
    have := Nat.div_mul_le_self N w
    simpa [num_windows, Nat.mul_comm] using this
  exact (Nat.le_div_iff_mul_le hnw).mpr hmul

theorem mod_num_windows_le_ticks (N w : ℕ) (hw : 1 ≤ w) (hN : w ≤ N) :
    N % num_windows N w ≤ window_ticks N w := by
  have hnw := num_windows_pos N w hw hN
  have ht := le_window_ticks N w hw hN
  rcases le_or_lt (num_windows N w) w with hcase | hcase
  · exact le_trans (le_of_lt (Nat.mod_lt N hnw)) (le_trans hcase ht)
  · have hsw : N % w < w := Nat.mod_lt N (Nat.lt_of_lt_of_le Nat.zero_lt_one hw)
    set q := num_windows N w with hq
    have hdm : q * w + N % w = N := by
      rw [Nat.mul_comm]; exact Nat.div_add_mod N w
    have hmod : N % q = N % w := by
      conv_lhs => rw [← hdm]
      rw [Nat.mul_add_mod]
      exact Nat.mod_eq_of_lt (lt_trans hsw hcase)
    rw [hmod]
    exact le_trans (le_of_lt hsw) ht

theorem le_succ_num_windows_mul (N w : ℕ) (hw : 1 ≤ w) (hN : w ≤ N) :
    N ≤ (num_windows N w + 1) * window_ticks N w := by
  have hdm : num_windows N w * window_ticks N w + N % num_windows N w = N :=
    Nat.div_add_mod N (num_windows N w)
  have hr := mod_num_windows_le_ticks N w hw hN
  calc N = num_windows N w * window_ticks N w + N % num_windows N w := hdm.symm
    _ ≤ num_windows N w * window_ticks N w + window_ticks N w :=
        Nat.add_le_add_left hr _
    _ = (num_windows N w + 1) * window_ticks N w := by ring

theorem windowOf_le_num_windows (N w i : ℕ) (hw : 1 ≤ w) (hN : w ≤ N) (hi : i < N) :
    windowOf N w i ≤ num_windows N w := by
  have ht := window_ticks_pos N w hw hN
  have : i < (num_windows N w + 1) * window_ticks N w :=
    lt_of_lt_of_le hi (le_succ_num_windows_mul N w hw hN)
  have := (Nat.div_lt_iff_lt_mul ht).mpr (by
    calc i < (num_windows N w + 1) * window_ticks N w := this
      _ = (num_windows N w + 1) * window_ticks N w := rfl)
  exact Nat.lt_succ_iff.mp (by simpa [windowOf] using this)

theorem windowOf_lt_of_dvd (N w i : ℕ) (hw : 1 ≤ w) (hN : w ≤ N) (hi : i < N)
    (hr : N % num_windows N w = 0) : windowOf N w i < num_windows N w := by
  have ht := window_ticks_pos N w hw hN
  have hdm : num_windows N w * window_ticks N w + N % num_windows N w = N :=
    Nat.div_add_mod N (num_windows N w)
  rw [hr, Nat.add_zero] at hdm
  have hlt : i < num_windows N w * window_ticks N w := by rw [hdm]; exact hi
  have hdiv : i / window_ticks N w < num_windows N w :=
    (Nat.div_lt_iff_lt_mul ht).mpr hlt
  simpa [windowOf] using hdiv

theorem windowOf_surjective (N w v : ℕ) (hw : 1 ≤ w) (hN : w ≤ N)
    (hv : (N % num_windows N w = 0 → v < num_windows N w) ∧
          (N % num_windows N w ≠ 0 → v ≤ num_windows N w)) :
    ∃ i, i < N ∧ windowOf N w i = v := by
  have ht := window_ticks_pos N w hw hN
  have hdm : num_windows N w * window_ticks N w + N % num_windows N w = N :=
    Nat.div_add_mod N (num_windows N w)
  refine ⟨v * window_ticks N w, ?_, ?_⟩
  · by_cases hr : N % num_windows N w = 0
    · have hvlt := hv.1 hr
      rw [hr, Nat.add_zero] at hdm
      calc v * window_ticks N w < num_windows N w * window_ticks N w :=
            (Nat.mul_lt_mul_right ht).mpr hvlt
        _ = N := hdm
    · have hvle := hv.2 hr
      have hrpos : 0 < N % num_windows N w := Nat.pos_of_ne_zero hr
      calc v * window_ticks N w ≤ num_windows N w * window_ticks N w :=
            Nat.mul_le_mul_right _ hvle
        _ < num_windows N w * window_ticks N w + N % num_windows N w :=
            Nat.lt_add_of_pos_right hrpos
        _ = N := hdm
  · simp [windowOf, Nat.mul_div_cancel _ ht]

/-- **C2 counterexample.** At `N = 10`, `w = 3` (a population of 10 records,
window size 3): `num_windows = 3`, but the record at rank 9 receives window
index `3`, outside `[0, num_windows - 1]`, and the number of distinct windows
before merging is `4 ≠ floor(N/w)`. -/
theorem windowOf_not_bounded_counterexample :
    num_windows 10 3 = 3 ∧ windowOf 10 3 9 = 3 ∧
    ¬ windowOf 10 3 9 ≤ num_windows 10 3 - 1 ∧
    numDistinctWindows 10 3 ≠ num_windows 10 3 := by decide

/-- **C2 amended.** For `N ≥ w ≥ 1`, every record's window index lies in
`[0, num_windows]` (the maximal index `num_windows` itself occurs exactly when
`num_windows` does not divide `N`), and the number of distinct windows before
merging is `floor(N/w)` when `num_windows` divides `N` and `floor(N/w) + 1`
otherwise. -/
theorem windowIndices_range (N w : ℕ) (hw : 1 ≤ w) (hN : w ≤ N) :
    (∀ i, i < N → windowOf N w i ≤ num_windows N w) ∧
    numDistinctWindows N w =
      (if N % num_windows N w = 0 then num_windows N w else num_windows N w + 1) := by
  constructor
  · exact fun i hi => windowOf_le_num_windows N w i hw hN hi
  · have hnw := num_windows_pos N w hw hN
    have hfin : (windowIndices N w).toFinset =
        Finset.range ((if N % num_windows N w = 0 then num_windows N w - 1
          else num_windows N w) + 1) := by
      ext v
      simp only [List.mem_toFinset, windowIndices, List.mem_map, List.mem_range,
        Finset.mem_range, Nat.lt_succ_iff]
      constructor
      · rintro ⟨i, hi, rfl⟩
        by_cases hr : N % num_windows N w = 0
        · simp only [hr, if_pos]
          exact Nat.le_sub_one_of_lt (windowOf_lt_of_dvd N w i hw hN hi hr)
        · simp only [hr, if_neg, ite_false]
          exact windowOf_le_num_windows N w i hw hN hi
      · intro hv
        by_cases hr : N % num_windows N w = 0
        · rw [if_pos hr] at hv
          obtain ⟨i, hi, hwi⟩ := windowOf_surjective N w v hw hN
            ⟨fun _ => Nat.lt_of_le_of_lt hv (Nat.sub_lt hnw Nat.one_pos),
             fun h => absurd hr h⟩
          exact ⟨i, hi, hwi⟩
        · rw [if_neg hr] at hv
          obtain ⟨i, hi, hwi⟩ := windowOf_surjective N w v hw hN
            ⟨fun h => absurd h hr, fun _ => hv⟩
          exact ⟨i, hi, hwi⟩
    have hcard : numDistinctWindows N w = (windowIndices N w).toFinset.card := by
      rw [List.card_toFinset]
      rfl
    rw [hcard, hfin, Finset.card_range]
    by_cases hr : N % num_windows N w = 0
    · rw [if_pos hr, if_pos hr, Nat.sub_add_cancel hnw]
    · rw [if_neg hr, if_neg hr]

/-- Witness for the amended C2 statement at `N = 10`, `w = 3`. -/
theorem windowIndices_range_witness :
    (∀ i, i < 10 → windowOf 10 3 i ≤ num_windows 10 3) ∧
    numDistinctWindows 10 3 =
      (if 10 % num_windows 10 3 = 0 then num_windows 10 3 else num_windows 10 3 + 1) :=
  windowIndices_range 10 3 (by decide) (by decide)

/-! ## C3: merging an under-populated final window (lines 134-136) -/

/-- Line 134: `max_window = max(bsloc['window'])`. -/
def max_window (ws : List ℕ) : ℕ := ws.foldr max 0

/-- Lines 135-136: if the final window holds fewer than `w / 2` records
(`count < w / 2` in Python's true division, equivalently `2 * count < w`),
every record of the final window is reassigned to `max_window - 1`. -/
def mergeLastWindow (w : ℕ) (ws : List ℕ) : List ℕ :=
  if 2 * ws.count (max_window ws) < w then
    ws.map (fun v => if v = max_window ws then max_window ws - 1 else v)
  else ws

theorem le_max_window (ws : List ℕ) (x : ℕ) (hx : x ∈ ws) : x ≤ max_window ws := by
  induction ws with
  | nil => cases hx
  | cons a l ih =>
    rcases List.mem_cons.mp hx with rfl | h
    · exact le_max_left _ _
    · exact le_trans (ih h) (le_max_right _ _)

theorem windowIndices_length (N w : ℕ) : (windowIndices N w).length = N := by
  simp [windowIndices]

theorem max_window_pos_of_merge (N w : ℕ) (_hw : 1 ≤ w) (hN : w ≤ N)
    (hlt : 2 * (windowIndices N w).count (max_window (windowIndices N w)) < w) :
    1 ≤ max_window (windowIndices N w) := by
  by_contra hmx
  have hmx0 : max_window (windowIndices N w) = 0 := by omega
  have hall : ∀ b ∈ windowIndices N w, b = 0 := fun b hb =>
    Nat.le_zero.mp (hmx0 ▸ le_max_window _ b hb)
  have hcount : (windowIndices N w).count 0 = N := by
    have h1 : (windowIndices N w).count 0 = (windowIndices N w).length :=
      List.count_eq_length.mpr (fun b hb => (hall b hb).symm)
    rw [h1, windowIndices_length]
  rw [hmx0, hcount] at hlt
  omega

/-- **C3.** After window assignment on a population of `N ≥ w` records: when
the window with the maximal index holds fewer than `w/2` records, every record
of that window is reassigned to `max_window - 1`, so no record with the
original maximal index remains; when it holds at least `w/2` records, the
window column is unchanged. -/
theorem mergeLastWindow_spec (N w : ℕ) (hw : 1 ≤ w) (hN : w ≤ N) :
    (2 * (windowIndices N w).count (max_window (windowIndices N w)) < w →
      mergeLastWindow w (windowIndices N w) =
        (windowIndices N w).map (fun v =>
          if v = max_window (windowIndices N w) then
            max_window (windowIndices N w) - 1 else v) ∧
      (mergeLastWindow w (windowIndices N w)).count
        (max_window (windowIndices N w)) = 0) ∧
    (w ≤ 2 * (windowIndices N w).count (max_window (windowIndices N w)) →
      mergeLastWindow w (windowIndices N w) = windowIndices N w) := by
  constructor
  · intro hlt
    have hmx := max_window_pos_of_merge N w hw hN hlt
    have heq : mergeLastWindow w (windowIndices N w) =
        (windowIndices N w).map (fun v =>
          if v = max_window (windowIndices N w) then
            max_window (windowIndices N w) - 1 else v) := by
      unfold mergeLastWindow
      rw [if_pos hlt]
    refine ⟨heq, ?_⟩
    rw [heq]
    rw [List.count_eq_zero]
    intro hmem
    obtain ⟨v, hv, hfv⟩ := List.mem_map.mp hmem
    by_cases hvmx : v = max_window (windowIndices N w)
    · rw [if_pos hvmx] at hfv
      omega
    · rw [if_neg hvmx] at hfv
      exact hvmx hfv
  · intro hge
    unfold mergeLastWindow
    rw [if_neg (by omega)]

/-- Witness for C3 at `N = 10`, `w = 3`. -/
theorem mergeLastWindow_spec_witness :
    (2 * (windowIndices 10 3).count (max_window (windowIndices 10 3)) < 3 →
      mergeLastWindow 3 (windowIndices 10 3) =
        (windowIndices 10 3).map (fun v =>
          if v = max_window (windowIndices 10 3) then
            max_window (windowIndices 10 3) - 1 else v) ∧
      (mergeLastWindow 3 (windowIndices 10 3)).count
        (max_window (windowIndices 10 3)) = 0) ∧
    (3 ≤ 2 * (windowIndices 10 3).count (max_window (windowIndices 10 3)) →
      mergeLastWindow 3 (windowIndices 10 3) = windowIndices 10 3) :=
  mergeLastWindow_spec 10 3 (by decide) (by decide)

/-! ## Record model for the FDR stage (lines 180-224) -/

/-- One row of a locality table: iteration label (as an index), global degree,
residual, and z-score. -/
structure LocRow where
  iter : ℕ
  global : ℚ
  resid : ℚ
  zscore : ℚ
deriving DecidableEq, Repr

/-- Line 197: `fdr = fdr[fdr['global'] <= max(loc['global'])]`. -/
def fdrFiltered (recs : List LocRow) (maxGlobal : ℚ) : List LocRow :=
  recs.filter (fun r => decide (r.global ≤ maxGlobal))

/-- Line 206 (and line 211 for the empirical table): the records whose z-score
meets threshold `t`. -/
def qualifying (recs : List LocRow) (t : ℚ) : List LocRow :=
  recs.filter (fun r => decide (t ≤ r.zscore))

/-- Lines 206-210: `fdr_indices.groupby('iter_name').apply(len).mean()` when
some record qualifies, else `0`.  The `groupby` mean averages the group sizes
over only the iterations that appear among the qualifying records, so it
equals (total qualifying count) / (number of distinct iteration labels among
the qualifying records). -/
def num_random (recs : List LocRow) (t : ℚ) : ℚ :=
  if 0 < (qualifying recs t).length then
    ((qualifying recs t).length : ℚ) /
      ((((qualifying recs t).map LocRow.iter).dedup).length : ℚ)
  else 0

/-- Modelled from the claim's words for comparison: the mean over all `nb`
bootstrap iterations of the per-iteration count of qualifying records, an
iteration with no qualifying record contributing `0`. -/
def num_random_claimed (recs : List LocRow) (nb : ℕ) (t : ℚ) : ℚ :=
  (((List.range nb).map (fun k =>
    (((qualifying recs t).map LocRow.iter).count k : ℚ))).sum) / (nb : ℚ)

theorem dedup_toFinset (l : List ℕ) : l.dedup.toFinset = l.toFinset := by
  ext x
  simp [List.mem_toFinset, List.mem_dedup]

theorem sum_dedup_count (l : List ℕ) :
    (l.dedup.map (fun k => (l.count k : ℚ))).sum = (l.length : ℚ) := by
  have h1 : l.dedup.toFinset.sum (fun k => (l.count k : ℚ)) =
      (l.dedup.map (fun k => (l.count k : ℚ))).sum :=
    List.sum_toFinset _ l.nodup_dedup
  rw [← h1, dedup_toFinset, ← Nat.cast_sum, List.sum_toFinset_count_eq_length]

/-- **C4 counterexample.** Two bootstrap iterations, both surviving the
global-degree filter; only iteration 0 has a record with `zscore ≥ 0`.  The
code's `num_random` at threshold 0 is `1` (mean over the single iteration
present among qualifying records), while the claimed mean over all iterations
is `1/2`. -/
theorem num_random_skips_empty_iters :
    num_random (fdrFiltered [⟨0, 1, 0, 5⟩, ⟨1, 1, 0, -1⟩] 1) 0 = 1 ∧
    num_random_claimed (fdrFiltered [⟨0, 1, 0, 5⟩, ⟨1, 1, 0, -1⟩] 1) 2 0 = 1 / 2 ∧
    num_random (fdrFiltered [⟨0, 1, 0, 5⟩, ⟨1, 1, 0, -1⟩] 1) 0 ≠
      num_random_claimed (fdrFiltered [⟨0, 1, 0, 5⟩, ⟨1, 1, 0, -1⟩] 1) 2 0 := by
  have h1 : num_random (fdrFiltered [⟨0, 1, 0, 5⟩, ⟨1, 1, 0, -1⟩] 1) 0 = 1 := by
    simp +decide [num_random, qualifying, fdrFiltered, List.filter, List.dedup]
  have h2 : num_random_claimed (fdrFiltered [⟨0, 1, 0, 5⟩, ⟨1, 1, 0, -1⟩] 1) 2 0 = 1 / 2 := by
    simp +decide [num_random_claimed, qualifying, fdrFiltered, List.filter, List.range_succ]
  refine ⟨h1, h2, ?_⟩
  rw [h1, h2]
  norm_num

/-- **C4 amended.** When at least one record qualifies at threshold `t`,
`num_random` is the mean of the per-iteration qualifying counts taken over
only the iterations that have at least one qualifying record (and it is `0`
when no record qualifies, by definition). -/
theorem num_random_mean_over_present_iters (recs : List LocRow) (t : ℚ)
    (h : 0 < (qualifying recs t).length) :
    num_random recs t =
      (((((qualifying recs t).map LocRow.iter).dedup).map (fun k =>
        (((qualifying recs t).map LocRow.iter).count k : ℚ))).sum) /
      (((((qualifying recs t).map LocRow.iter).dedup)).length : ℚ) := by
  rw [sum_dedup_count ((qualifying recs t).map LocRow.iter)]
  rw [List.length_map]
  unfold num_random
  rw [if_pos h]

/-- Witness for the amended C4 statement. -/
theorem num_random_mean_over_present_iters_witness :
    0 < (qualifying [(⟨0, 1, 0, 5⟩ : LocRow)] 0).length ∧
    num_random [(⟨0, 1, 0, 5⟩ : LocRow)] 0 =
      (((((qualifying [(⟨0, 1, 0, 5⟩ : LocRow)] 0).map LocRow.iter).dedup).map (fun k =>
        (((qualifying [(⟨0, 1, 0, 5⟩ : LocRow)] 0).map LocRow.iter).count k : ℚ))).sum) /
      (((((qualifying [(⟨0, 1, 0, 5⟩ : LocRow)] 0).map LocRow.iter).dedup)).length : ℚ) :=
  ⟨by decide, num_random_mean_over_present_iters [⟨0, 1, 0, 5⟩] 0 (by decide)⟩

/-! ## C5 and C10: the gene-specific FDR threshold loop (lines 204-216) -/

/-- Line 211: `num_real = sum(loc.zscore >= zscore)`. -/
def num_real (locs : List LocRow) (t : ℚ) : ℕ := (qualifying locs t).length

/-- Lines 212-215: the FDR value computed at threshold `t`:
`num_random/num_real` when both are nonzero, else `1`. -/
def zfdr (locs recs : List LocRow) (t : ℚ) : ℚ :=
  if num_real locs t ≠ 0 ∧ num_random recs t ≠ 0 then
    num_random recs t / (num_real locs t : ℚ)
  else 1

/-- One pass of line 216 (`loc.loc[loc.zscore >= zscore, 'fdr'] = zfdr`) on a
single record paired with its current `fdr` cell. -/
def thresholdStep (locs recs : List LocRow) (p : LocRow × Option ℚ) (t : ℕ) :
    LocRow × Option ℚ :=
  if (t : ℚ) ≤ p.1.zscore then (p.1, some (zfdr locs recs (t : ℚ))) else p

/-- Lines 204-216: `for zscore in range(0,8)` writing the `fdr` column of the
empirical table in ascending threshold order; `none` models a cell never
written (missing in the output table). -/
def fdrColumn (locs recs : List LocRow) : List (LocRow × Option ℚ) :=
  (List.range 8).foldl
    (fun col t => col.map (fun p => thresholdStep locs recs p t))
    (locs.map (fun r => (r, none)))

theorem foldl_map_comm {α β : Type} (g : β → α → α) (ts : List β) (l : List α) :
    ts.foldl (fun col t => col.map (fun p => g t p)) l =
      l.map (fun p => ts.foldl (fun q t => g t q) p) := by
  induction ts generalizing l with
  | nil => simp
  | cons t ts ih =>
    simp only [List.foldl_cons]
    rw [ih (l.map (fun p => g t p)), List.map_map]
    rfl

theorem foldl_threshold_eval (locs recs : List LocRow) (r : LocRow) (n : ℕ) :
    (List.range n).foldl (fun q t => thresholdStep locs recs q t) (r, none) =
      if 0 ≤ r.zscore ∧ 0 < n then
        (r, some (zfdr locs recs ((min (n - 1) (Int.toNat ⌊r.zscore⌋) : ℕ) : ℚ)))
      else (r, none) := by
  induction n with
  | zero => simp
  | succ n ih =>
    rw [List.range_succ, List.foldl_append, ih, List.foldl_cons, List.foldl_nil]
    by_cases hz : 0 ≤ r.zscore
    · have hfl0 : (0 : ℤ) ≤ ⌊r.zscore⌋ := Int.floor_nonneg.mpr hz
      by_cases hnz : (n : ℚ) ≤ r.zscore
      · have hfl : (n : ℤ) ≤ ⌊r.zscore⌋ := Int.le_floor.mpr (by exact_mod_cast hnz)
        have hmin : min (n + 1 - 1) (Int.toNat ⌊r.zscore⌋) = n := by omega
        by_cases hn : 0 < n
        · rw [if_pos ⟨hz, hn⟩, if_pos ⟨hz, Nat.succ_pos n⟩, hmin]
          unfold thresholdStep
          rw [if_pos hnz]
        · have hn0 : n = 0 := by omega
          subst hn0
          rw [if_neg (by simp), if_pos ⟨hz, Nat.one_pos⟩]
          unfold thresholdStep
          rw [if_pos (by simpa using hnz)]
          norm_num
      · have hlt : ⌊r.zscore⌋ < (n : ℤ) := by
          rw [Int.floor_lt]
          push_cast
          linarith [not_le.mp hnz]
        have hn : 0 < n := by
          by_contra hc
          have : n = 0 := by omega
          subst this
          omega
        have hmin : min (n + 1 - 1) (Int.toNat ⌊r.zscore⌋) =
            min (n - 1) (Int.toNat ⌊r.zscore⌋) := by omega
        rw [if_pos ⟨hz, hn⟩, if_pos ⟨hz, Nat.succ_pos n⟩, hmin]
        unfold thresholdStep
        rw [if_neg (by simpa using hnz)]
    · rw [if_neg (fun hc => hz hc.1), if_neg (fun hc => hz hc.1)]
      unfold thresholdStep
      rw [if_neg (by
        simp only [not_le]
        calc r.zscore < 0 := not_le.mp hz
          _ ≤ (n : ℚ) := by positivity)]

/-- **C5.** In gene-specific mode, an empirical record with `zscore ≥ 0` ends
the ascending threshold loop holding `zfdr` evaluated at the highest integer
threshold in `0..7` that its z-score satisfies: every pass with `t ≤ zscore`
overwrites the cell, and the last such pass wins. -/
theorem fdrColumn_final_value (locs recs : List LocRow) (p : LocRow × Option ℚ)
    (hp : p ∈ fdrColumn locs recs) (hz : 0 ≤ p.1.zscore) :
    ∃ tStar : ℕ, tStar < 8 ∧ (tStar : ℚ) ≤ p.1.zscore ∧
      (∀ t : ℕ, t < 8 → (t : ℚ) ≤ p.1.zscore → t ≤ tStar) ∧
      p.2 = some (zfdr locs recs (tStar : ℚ)) := by
  unfold fdrColumn at hp
  rw [foldl_map_comm (fun t q => thresholdStep locs recs q t), List.map_map] at hp
  obtain ⟨r, hr, hpr⟩ := List.mem_map.mp hp
  simp only [Function.comp] at hpr
  rw [foldl_threshold_eval] at hpr
  by_cases h0 : 0 ≤ r.zscore
  · rw [if_pos ⟨h0, by norm_num⟩] at hpr
    subst hpr
    have hfl0 : (0 : ℤ) ≤ ⌊r.zscore⌋ := Int.floor_nonneg.mpr h0
    have htn : ((Int.toNat ⌊r.zscore⌋ : ℕ) : ℤ) = ⌊r.zscore⌋ := Int.toNat_of_nonneg hfl0
    refine ⟨min 7 (Int.toNat ⌊r.zscore⌋), ?_, ?_, ?_, ?_⟩
    · have := min_le_left 7 (Int.toNat ⌊r.zscore⌋)
      omega
    · have h1 : (min 7 (Int.toNat ⌊r.zscore⌋) : ℤ) ≤ ⌊r.zscore⌋ := by
        have := min_le_right 7 (Int.toNat ⌊r.zscore⌋)
        omega
      have h2 : ((⌊r.zscore⌋ : ℤ) : ℚ) ≤ r.zscore := Int.floor_le r.zscore
      calc ((min 7 (Int.toNat ⌊r.zscore⌋) : ℕ) : ℚ)
          = (((min 7 (Int.toNat ⌊r.zscore⌋) : ℕ) : ℤ) : ℚ) := by push_cast; ring
        _ ≤ ((⌊r.zscore⌋ : ℤ) : ℚ) := by exact_mod_cast h1
        _ ≤ r.zscore := h2
    · intro t ht htz
      have hfl : (t : ℤ) ≤ ⌊r.zscore⌋ := Int.le_floor.mpr (by exact_mod_cast htz)
      omega
    · norm_num
  · rw [if_neg (fun hc => h0 hc.1)] at hpr
    subst hpr
    exact absurd hz h0

/-- Witness for C5: a single empirical record with `zscore = 2` ends with the
FDR cell written. -/
theorem fdrColumn_final_value_witness :
    ((⟨⟨0, 1, 0, 2⟩, some 1⟩ : LocRow × Option ℚ) ∈
      fdrColumn [⟨0, 1, 0, 2⟩] [⟨0, 1, 0, -5⟩] ∧
     0 ≤ ((⟨⟨0, 1, 0, 2⟩, some 1⟩ : LocRow × Option ℚ)).1.zscore) ∧
    (∃ tStar : ℕ, tStar < 8 ∧
      (tStar : ℚ) ≤ ((⟨⟨0, 1, 0, 2⟩, some 1⟩ : LocRow × Option ℚ)).1.zscore ∧
      (∀ t : ℕ, t < 8 →
        (t : ℚ) ≤ ((⟨⟨0, 1, 0, 2⟩, some 1⟩ : LocRow × Option ℚ)).1.zscore →
        t ≤ tStar) ∧
      ((⟨⟨0, 1, 0, 2⟩, some 1⟩ : LocRow × Option ℚ)).2 =
        some (zfdr [⟨0, 1, 0, 2⟩] [⟨0, 1, 0, -5⟩] (tStar : ℚ))) :=
  ⟨⟨by decide, by decide⟩,
   fdrColumn_final_value [⟨0, 1, 0, 2⟩] [⟨0, 1, 0, -5⟩] _ (by decide) (by decide)⟩

/-- **C10.** In gene-specific mode an empirical record with `zscore < 0` is
never written by any threshold pass, so its `fdr` cell stays missing, while a
record with `zscore ≥ 0` always receives a value. -/
theorem fdrColumn_unset_iff_negative (locs recs : List LocRow)
    (p : LocRow × Option ℚ) (hp : p ∈ fdrColumn locs recs) :
    (p.1.zscore < 0 → p.2 = none) ∧ (0 ≤ p.1.zscore → ∃ v, p.2 = some v) := by
  unfold fdrColumn at hp
  rw [foldl_map_comm (fun t q => thresholdStep locs recs q t), List.map_map] at hp
  obtain ⟨r, hr, hpr⟩ := List.mem_map.mp hp
  simp only [Function.comp] at hpr
  rw [foldl_threshold_eval] at hpr
  by_cases h0 : 0 ≤ r.zscore
  · rw [if_pos ⟨h0, by norm_num⟩] at hpr
    subst hpr
    exact ⟨fun hc => absurd h0 (not_le.mpr hc), fun _ => ⟨_, rfl⟩⟩
  · rw [if_neg (fun hc => h0 hc.1)] at hpr
    subst hpr
    exact ⟨fun _ => rfl, fun hc => absurd hc h0⟩

/-- Witness for C10: a single empirical record with `zscore = -3` keeps a
missing FDR cell. -/
theorem fdrColumn_unset_iff_negative_witness :
    ((⟨⟨0, 1, 0, -3⟩, none⟩ : LocRow × Option ℚ) ∈
      fdrColumn [⟨0, 1, 0, -3⟩] [⟨0, 1, 0, -5⟩]) ∧
    (((⟨⟨0, 1, 0, -3⟩, none⟩ : LocRow × Option ℚ)).1.zscore < 0 →
      ((⟨⟨0, 1, 0, -3⟩, none⟩ : LocRow × Option ℚ)).2 = none) ∧
    (0 ≤ ((⟨⟨0, 1, 0, -3⟩, none⟩ : LocRow × Option ℚ)).1.zscore →
      ∃ v, ((⟨⟨0, 1, 0, -3⟩, none⟩ : LocRow × Option ℚ)).2 = some v) :=
  ⟨by decide,
   fdrColumn_unset_iff_negative [⟨0, 1, 0, -3⟩] [⟨0, 1, 0, -5⟩] _ (by decide)⟩

/-! ## C6: aggregate-mode p-value (lines 217-224) -/

/-- `np.mean` of a rational column. -/
def listMean (l : List ℚ) : ℚ := l.sum / (l.length : ℚ)

/-- Line 220 grouping keys: the distinct iteration labels present in the
(filtered) FDR table. -/
def itersPresent (recs : List LocRow) : List ℕ := (recs.map LocRow.iter).dedup

/-- Line 220: the mean residual of iteration `k` over its surviving records. -/
def iterMeanResid (recs : List LocRow) (k : ℕ) : ℚ :=
  listMean ((recs.filter (fun r => decide (r.iter = k))).map LocRow.resid)

/-- Lines 219-224: `sum([x >= average_resid for x in fdr.resid.values])/len(fdr)`
after both tables are collapsed to per-group means; `average_resid` is the mean
empirical residual and `len(fdr)` counts the iterations present in the filtered
FDR table. -/
def aggregatePval (locResids : List ℚ) (recs : List LocRow) : ℚ :=
  (((itersPresent recs).filter
    (fun k => decide (listMean locResids ≤ iterMeanResid recs k))).length : ℚ) /
  ((itersPresent recs).length : ℚ)

/-- **C6 counterexample.** Three bootstrap iterations; iteration 2's only
record has global degree above the empirical maximum and is removed by the
line-197 filter, so only two iterations remain.  Exactly one of them has mean
residual at least the empirical mean, so the reported p-value is `1/2`, which
is not `k/3` for any integer `k ≤ 3`. -/
theorem aggregatePval_denominator :
    aggregatePval [0] (fdrFiltered [⟨0, 1, 5, 0⟩, ⟨1, 1, -7, 0⟩, ⟨2, 9, 5, 0⟩] 1) = 1 / 2 ∧
    ∀ k : ℕ, k < 4 →
      aggregatePval [0] (fdrFiltered [⟨0, 1, 5, 0⟩, ⟨1, 1, -7, 0⟩, ⟨2, 9, 5, 0⟩] 1) ≠
        (k : ℚ) / 3 := by
  have h : aggregatePval [0]
      (fdrFiltered [⟨0, 1, 5, 0⟩, ⟨1, 1, -7, 0⟩, ⟨2, 9, 5, 0⟩] 1) = 1 / 2 := by
    simp +decide [aggregatePval, itersPresent, iterMeanResid, listMean,
      fdrFiltered, List.filter, List.dedup]
  refine ⟨h, ?_⟩
  intro k hk
  rw [h]
  interval_cases k <;> norm_num

/-- **C6 amended.** The aggregate-mode p-value is the count of surviving
iterations (iterations retaining at least one record after the global-degree
filter) whose mean residual is at least the empirical mean residual, divided by
the number of surviving iterations `m`; it lies in `[0, 1]` and equals `k/m`
for an integer `k ≤ m` (so it equals `k/num_bootstraps` only when every
iteration survives the filter). -/
theorem aggregatePval_bounds (locResids : List ℚ) (recs : List LocRow)
    (h : itersPresent recs ≠ []) :
    0 ≤ aggregatePval locResids recs ∧ aggregatePval locResids recs ≤ 1 ∧
    ∃ k : ℕ, k ≤ (itersPresent recs).length ∧
      aggregatePval locResids recs = (k : ℚ) / ((itersPresent recs).length : ℚ) := by
  have hm : 0 < (itersPresent recs).length := List.length_pos.mpr h
  have hmq : (0 : ℚ) < ((itersPresent recs).length : ℚ) := by exact_mod_cast hm
  have hk : ((itersPresent recs).filter
      (fun k => decide (listMean locResids ≤ iterMeanResid recs k))).length ≤
      (itersPresent recs).length := List.length_filter_le _ _
  refine ⟨?_, ?_, ?_⟩
  · exact div_nonneg (by positivity) (le_of_lt hmq)
  · rw [aggregatePval, div_le_one hmq]
    exact_mod_cast hk
  · exact ⟨_, hk, rfl⟩

/-- Witness for the amended C6 statement. -/
theorem aggregatePval_bounds_witness :
    itersPresent [(⟨0, 1, 5, 0⟩ : LocRow)] ≠ [] ∧
    (0 ≤ aggregatePval [0] [(⟨0, 1, 5, 0⟩ : LocRow)] ∧
     aggregatePval [0] [(⟨0, 1, 5, 0⟩ : LocRow)] ≤ 1 ∧
     ∃ k : ℕ, k ≤ (itersPresent [(⟨0, 1, 5, 0⟩ : LocRow)]).length ∧
       aggregatePval [0] [(⟨0, 1, 5, 0⟩ : LocRow)] =
         (k : ℚ) / ((itersPresent [(⟨0, 1, 5, 0⟩ : LocRow)]).length : ℚ)) :=
  ⟨by decide, aggregatePval_bounds [0] [⟨0, 1, 5, 0⟩] (by decide)⟩

/-! ## C7: non-finite z-scores from a zero SD estimate (lines 168-174, 201-211) -/

/-- IEEE-754 style value of a z-score: a finite rational, an infinity, or NaN. -/
inductive FVal where
  | fin : ℚ → FVal
  | posInf : FVal
  | negInf : FVal
  | nan : FVal
deriving DecidableEq, Repr

/-- Float division of a finite residual by a finite SD estimate, as numpy
float64 performs it: division by `0` yields `±inf` (or NaN for `0/0`) instead
of raising. -/
def fdiv (x y : ℚ) : FVal :=
  if y = 0 then
    if x = 0 then FVal.nan else if 0 < x then FVal.posInf else FVal.negInf
  else FVal.fin (x / y)

/-- A record entering the z-score step: its residual and its SD estimate
(`bs_std`). -/
structure RawRec where
  resid : ℚ
  bsStd : ℚ
deriving DecidableEq, Repr

/-- Lines 169, 173 and 202: `zscore = x['resid']/x['bs_std']`, performed
unconditionally for every record, with no branch on the SD estimate. -/
def zscoreF (r : RawRec) : FVal := fdiv r.resid r.bsStd

/-- numpy semantics of `zscore >= t` on a float: `inf >= t` is true,
`-inf >= t` and `nan >= t` are false. -/
def fge (v : FVal) (t : ℚ) : Bool :=
  match v with
  | FVal.fin x => decide (t ≤ x)
  | FVal.posInf => true
  | FVal.negInf => false
  | FVal.nan => false

/-- Line 206 with float z-scores: the count of records whose z-score meets
threshold `t`, exactly as it feeds the FDR computation. -/
def countAtF (rs : List RawRec) (t : ℚ) : ℕ :=
  (rs.filter (fun r => fge (zscoreF r) t)).length

/-- **C7 counterexample.** For the record with residual `1` and SD estimate
`0`, the code performs the division (producing the non-finite z-score `+inf`)
and the record is silently counted at every FDR threshold `0..7`; no code path
detects or flags the non-finite value. -/
theorem zscore_division_not_flagged :
    zscoreF ⟨1, 0⟩ = FVal.posInf ∧
    ∀ t : ℕ, t < 8 → countAtF [⟨1, 0⟩] (t : ℚ) = 1 := by decide

/-- **C7 amended.** The z-score step divides unconditionally: any record with
a zero SD estimate and positive residual receives z-score `+inf`, and every
FDR threshold count silently includes it (a zero residual would give NaN and
be silently excluded); no detection, flagging or distinct surfacing occurs. -/
theorem zscore_divzero_propagates (rs : List RawRec) (r : RawRec) (t : ℚ)
    (hr : r ∈ rs) (hstd : r.bsStd = 0) (hres : 0 < r.resid) :
    zscoreF r = FVal.posInf ∧ 1 ≤ countAtF rs t := by
  have hz : zscoreF r = FVal.posInf := by
    unfold zscoreF fdiv
    rw [if_pos hstd, if_neg (ne_of_gt hres), if_pos hres]
  refine ⟨hz, ?_⟩
  have hmem : r ∈ rs.filter (fun r => fge (zscoreF r) t) :=
    List.mem_filter.mpr ⟨hr, by rw [hz]; rfl⟩
  exact List.length_pos_of_mem hmem

/-- Witness for the amended C7 statement. -/
theorem zscore_divzero_propagates_witness :
    ((⟨1, 0⟩ : RawRec) ∈ [(⟨1, 0⟩ : RawRec)] ∧ (⟨1, 0⟩ : RawRec).bsStd = 0 ∧
      0 < (⟨1, 0⟩ : RawRec).resid) ∧
    (zscoreF ⟨1, 0⟩ = FVal.posInf ∧ 1 ≤ countAtF [⟨1, 0⟩] 3) :=
  ⟨⟨by decide, by decide, by decide⟩,
   zscore_divzero_propagates [⟨1, 0⟩] ⟨1, 0⟩ 3 (by decide) (by decide) (by decide)⟩

/-! ## C8: the output-file guard (lines 24-34 and 74) -/

/-- Python `s.replace(".csv", "")`: remove every occurrence of `".csv"`,
scanning left to right. -/
def stripCsv : List Char → List Char
  | '.' :: 'c' :: 's' :: 'v' :: rest => stripCsv rest
  | c :: rest => c :: stripCsv rest
  | [] => []

/-- Line 25: `args.out = "{}_Locality.csv".format(args.out.replace('.csv',''))`,
the path the run writes at line 74. -/
def outPath (out : List Char) : List Char := stripCsv out ++ "_Locality.csv".toList

/-- Line 28: the path whose existence the guard tests,
`"{}_Locality.csv".format(args.out.replace('.csv',''))`, evaluated after line 25
has already rewritten `args.out`. -/
def guardPath (out : List Char) : List Char :=
  stripCsv (outPath out) ++ "_Locality.csv".toList

/-- Lines 24-34 and 74 as a function of the set of existing files: `none`
models the early `return None` (run skipped before any term is analyzed),
`some p` a completed run writing its result table to path `p`. -/
def localityRun (existing : List (List Char)) (out : List Char) :
    Option (List Char) :=
  if guardPath out ∈ existing then none else some (outPath out)

/-- **C8.** With `--out results`, the run writes `results_Locality.csv`, but
the guard tests the existence of `results_Locality_Locality.csv` (the suffix
is appended a second time).  So when the output file of a previous run exists,
the run does not short-circuit: it proceeds and overwrites the existing
output. -/
theorem localityRun_guard_checks_wrong_file :
    outPath "results".toList = "results_Locality.csv".toList ∧
    guardPath "results".toList = "results_Locality_Locality.csv".toList ∧
    localityRun ["results_Locality.csv".toList] "results".toList =
      some ("results_Locality.csv".toList) := by decide

/-! ## C9: through-origin OLS (lines 123-125 and 192-194) -/

/-- `sm.OLS(df['local'], df['global']).fit()` with no added constant column:
statsmodels fits `local = beta * global` with least squares through the
origin, giving slope `sum(global*local) / sum(global^2)`. -/
def olsBeta (pts : List (ℚ × ℚ)) : ℚ :=
  (pts.map (fun p => p.1 * p.2)).sum / (pts.map (fun p => p.1 * p.1)).sum

/-- Line 124 / 193: the fitted values of the no-intercept model. -/
def fittedValues (pts : List (ℚ × ℚ)) : List ℚ :=
  pts.map (fun p => olsBeta pts * p.1)

/-- Residual sum of squares of a through-origin slope `b`. -/
def sse (pts : List (ℚ × ℚ)) (b : ℚ) : ℚ :=
  (pts.map (fun p => (p.2 - b * p.1) ^ 2)).sum

theorem sse_expand (pts : List (ℚ × ℚ)) (b : ℚ) :
    sse pts b = (pts.map (fun p => p.2 ^ 2)).sum
      - 2 * b * (pts.map (fun p => p.1 * p.2)).sum
      + b ^ 2 * (pts.map (fun p => p.1 * p.1)).sum := by
  induction pts with
  | nil => simp [sse]
  | cons p l ih =>
    simp only [sse, List.map_cons, List.sum_cons]
    simp only [sse] at ih
    rw [ih]
    ring

theorem sum_sq_nonneg (pts : List (ℚ × ℚ)) :
    0 ≤ (pts.map (fun p => p.1 * p.1)).sum := by
  apply List.sum_nonneg
  intro x hx
  obtain ⟨p, _, rfl⟩ := List.mem_map.mp hx
  exact mul_self_nonneg _

/-- **C9.** The OLS trend of local on global degree (both for the
enrichment-bootstrap table at line 123 and the FDR-bootstrap table at
line 192) is fitted without an intercept: every fitted value is a scalar
multiple of the record's global degree, and the code's slope minimises the
residual sum of squares among all through-origin slopes. -/
theorem ols_no_intercept (pts : List (ℚ × ℚ))
    (h : (pts.map (fun p => p.1 * p.1)).sum ≠ 0) :
    (∃ c : ℚ, fittedValues pts = pts.map (fun p => c * p.1)) ∧
    ∀ b : ℚ, sse pts (olsBeta pts) ≤ sse pts b := by
  refine ⟨⟨olsBeta pts, rfl⟩, ?_⟩
  intro b
  rw [sse_expand, sse_expand]
  have hβ : olsBeta pts * (pts.map (fun p => p.1 * p.1)).sum =
      (pts.map (fun p => p.1 * p.2)).sum := by
    unfold olsBeta
    exact div_mul_cancel₀ _ h
  have hS2 : 0 ≤ (pts.map (fun p => p.1 * p.1)).sum := sum_sq_nonneg pts
  have key : 0 ≤ (b - olsBeta pts) ^ 2 * (pts.map (fun p => p.1 * p.1)).sum :=
    mul_nonneg (sq_nonneg _) hS2
  have expand : (b - olsBeta pts) ^ 2 * (pts.map (fun p => p.1 * p.1)).sum =
      b ^ 2 * (pts.map (fun p => p.1 * p.1)).sum
        - 2 * b * (olsBeta pts * (pts.map (fun p => p.1 * p.1)).sum)
        + olsBeta pts ^ 2 * (pts.map (fun p => p.1 * p.1)).sum := by ring
  rw [hβ] at expand
  have h2 : olsBeta pts * (pts.map (fun p => p.1 * p.2)).sum =
      olsBeta pts ^ 2 * (pts.map (fun p => p.1 * p.1)).sum := by
    rw [← hβ]; ring
  linarith [key, expand, h2]

/-- Witness for C9 at the two points `(1, 2)` and `(2, 3)`. -/
theorem ols_no_intercept_witness :
    (([((1 : ℚ), (2 : ℚ)), (2, 3)].map (fun p => p.1 * p.1)).sum ≠ 0) ∧
    ((∃ c : ℚ, fittedValues [((1 : ℚ), (2 : ℚ)), (2, 3)] =
        [((1 : ℚ), (2 : ℚ)), (2, 3)].map (fun p => c * p.1)) ∧
     ∀ b : ℚ, sse [((1 : ℚ), (2 : ℚ)), (2, 3)]
        (olsBeta [((1 : ℚ), (2 : ℚ)), (2, 3)]) ≤
          sse [((1 : ℚ), (2 : ℚ)), (2, 3)] b) :=
  ⟨by norm_num, ols_no_intercept [((1 : ℚ), (2 : ℚ)), (2, 3)] (by norm_num)⟩

end Locality
